import Mathlib

/-!
Verification of the readable-content extraction and link-prioritization
engine of the OpenClawTest repository (Skills/Gen2WebText/gen2_web_text.py,
duplicated in Skills/Gen2WebSearch/gen2_web_search.py).

The Python code is shallowly embedded: strings are Lean `String`s but all
operations are implemented character-wise over `List Char` so that every
definition is executable and kernel-reducible; the BeautifulSoup DOM is a
rose tree `Node`; Python stdlib pieces that are external to the repository
(`urllib.parse.urljoin`/`urlparse`, the third-party `readability.Document`)
are passed in as parameters, so theorems quantify over them.
-/

set_option maxRecDepth 100000

namespace WebText

/-- Python's Unicode whitespace predicate, as used by `str.split()`,
`str.strip()` and `re`'s `\s` on `str`. -/
def pyIsSpace (c : Char) : Bool :=
  let n := c.toNat
  (9 ≤ n && n ≤ 13) || (28 ≤ n && n ≤ 32) || n == 0x85 || n == 0xa0 ||
  n == 0x1680 || (0x2000 ≤ n && n ≤ 0x200a) || n == 0x2028 || n == 0x2029 ||
  n == 0x202f || n == 0x205f || n == 0x3000

/-- Python `str.split()` with no separator: split on runs of whitespace,
discarding empty tokens.  Accumulator holds the current word reversed. -/
def splitWsAux : List Char → List Char → List (List Char)
  | [], acc => if acc = [] then [] else [acc.reverse]
  | c :: cs, acc =>
    if pyIsSpace c then
      if acc = [] then splitWsAux cs [] else acc.reverse :: splitWsAux cs []
    else splitWsAux cs (c :: acc)

def splitWs (l : List Char) : List (List Char) := splitWsAux l []

/-- `text.split()` at the `String` level. -/
def pyWords (s : String) : List String := (splitWs s.data).map String.mk

/-- `sep.join(parts)` at the character level. -/
def joinSep (sep : List Char) : List (List Char) → List Char
  | [] => []
  | [w] => w
  | w :: ws => w ++ sep ++ joinSep sep ws

/-- `" ".join(parts)` at the `String` level. -/
def joinSpace (ws : List String) : String :=
  String.mk (joinSep [' '] (ws.map String.data))

/-- Python `str.strip()`: drop leading and trailing whitespace. -/
def pyStripChars (l : List Char) : List Char :=
  ((l.dropWhile pyIsSpace).reverse.dropWhile pyIsSpace).reverse

def pyStrip (s : String) : String := String.mk (pyStripChars s.data)

/-- Python `str.lower()` (ASCII case fold; all vocabulary in the program is
ASCII). -/
def pyLower (s : String) : String := String.mk (s.data.map Char.toLower)

/-- `re.sub(r"\s+", " ", text)`: collapse each maximal whitespace run to a
single space.  The flag records whether the previous character was
whitespace. -/
def squashWsAux : Bool → List Char → List Char
  | _, [] => []
  | prevSpace, c :: cs =>
    if pyIsSpace c then
      if prevSpace then squashWsAux true cs else ' ' :: squashWsAux true cs
    else c :: squashWsAux false cs

def squashWs (s : String) : String := String.mk (squashWsAux false s.data)

/-- Python `pat in s` substring test. -/
def hasSub (pat : List Char) : List Char → Bool
  | [] => pat.isEmpty
  | c :: cs => pat.isPrefixOf (c :: cs) || hasSub pat cs

/-- `needle in hay` on `String`s. -/
def strContains (hay needle : String) : Bool := hasSub needle.data hay.data

/-- Python `s.startswith(pat)`. -/
def pyStartsWith (s pat : String) : Bool := pat.data.isPrefixOf s.data

/-- Python `s.endswith(pat)`. -/
def pyEndsWith (s pat : String) : Bool := pat.data.isSuffixOf s.data

/-- Python `s.replace(pat, rep)` for a non-empty `pat`: leftmost,
non-overlapping.  The `fuel` argument (initialized to the string length,
an upper bound on the number of steps) only makes the recursion
structural; every step consumes at least one character, so the `fuel = 0`
branch is never reached from `pyReplace`. -/
def replaceSubAux (pat rep : List Char) : Nat → List Char → List Char
  | _, [] => []
  | 0, l => l
  | fuel + 1, c :: cs =>
    if pat ≠ [] ∧ pat.isPrefixOf (c :: cs) then
      rep ++ replaceSubAux pat rep fuel (cs.drop (pat.length - 1))
    else
      c :: replaceSubAux pat rep fuel cs

def pyReplace (s pat rep : String) : String :=
  String.mk (replaceSubAux pat.data rep.data s.data.length s.data)

/-- Python `path.split(sep)` for a single-character separator (empty pieces
kept, as in Python). -/
def splitCharAux (sep : Char) : List Char → List Char → List (List Char)
  | [], cur => [cur.reverse]
  | c :: cs, cur =>
    if c = sep then cur.reverse :: splitCharAux sep cs []
    else splitCharAux sep cs (c :: cur)

def pySplitChar (s : String) (sep : Char) : List String :=
  (splitCharAux sep s.data []).map String.mk

/-- Python `path.rstrip("/")`: drop all trailing `'/'` characters. -/
def rstripSlash (s : String) : String :=
  String.mk ((s.data.reverse.dropWhile (· = '/')).reverse)

/-! ## DOM model

A BeautifulSoup parse tree: element tags with the attributes the program
reads (`id`, `class` list, `role`, `aria-label`, `href`) plus text nodes.
The whole document is a `Node` whose tag is `"[document]"`, matching the
`BeautifulSoup` root object (empty attribute map, matched by no tag query).
`find_all` enumerates strict descendants in document (pre-)order. -/

structure Attrs where
  id : Option String := none
  classes : List String := []
  role : Option String := none
  ariaLabel : Option String := none
  href : Option String := none
deriving DecidableEq, Repr

mutual
inductive Node where
  | text (s : String)
  | elem (tag : String) (attrs : Attrs) (children : NodeList)
inductive NodeList where
  | nil
  | cons (head : Node) (tail : NodeList)
end

/-- Build a child forest from an ordinary list (used to write example
documents). -/
def nodesOf : List Node → NodeList
  | [] => .nil
  | n :: rest => .cons n (nodesOf rest)

def Node.attrsOf : Node → Attrs
  | .text _ => {}
  | .elem _ a _ => a

def Node.tagOf : Node → String
  | .text _ => ""
  | .elem t _ _ => t

/-- `container.find_all(...)` restricted to element nodes: all strict
descendants, pre-order, that satisfy the query `q` on (tag, attrs). -/
def findAllList (q : String → Attrs → Bool) : NodeList → List Node
  | .nil => []
  | .cons (.text _) rest => findAllList q rest
  | .cons (.elem t a cs) rest =>
    (if q t a then [Node.elem t a cs] else []) ++ findAllList q cs ++ findAllList q rest

def Node.findAll (q : String → Attrs → Bool) : Node → List Node
  | .text _ => []
  | .elem _ _ cs => findAllList q cs

/-- The stripped, non-empty text fragments of a tree in document order:
`get_text(sep, strip=True)` joins exactly these with `sep`. -/
def textFragsList : NodeList → List String
  | .nil => []
  | .cons (.text s) rest =>
    (if pyStrip s = "" then [] else [pyStrip s]) ++ textFragsList rest
  | .cons (.elem _ _ cs) rest => textFragsList cs ++ textFragsList rest

def Node.textFrags : Node → List String
  | .text s => if pyStrip s = "" then [] else [pyStrip s]
  | .elem _ _ cs => textFragsList cs

/-- `node.get_text(" ", strip=True)`. -/
def Node.getTextSp (n : Node) : String := joinSpace n.textFrags

/-- Plain-text word count of a node, `len(node.get_text(" ", strip=True).split())`. -/
def Node.wc (n : Node) : Nat := (pyWords n.getTextSp).length

/-! ## Fixed vocabularies (module-level constants of gen2_web_text.py) -/

def NOISE_TAGS : List String :=
  ["script", "style", "noscript", "meta", "link", "nav", "header", "footer",
   "aside", "form", "button", "svg", "picture", "iframe"]

def NOISE_HINTS : List String :=
  ["nav", "menu", "header", "footer", "breadcrumb", "cookie", "consent", "privacy",
   "account", "signin", "sign-in", "login", "register", "newsletter", "share", "social",
   "promo", "advert", "ads", "sidebar", "related", "subscribe", "notification"]

def CONTENT_HINTS : List String :=
  ["content", "article", "story", "main", "body", "post", "entry", "headline", "news"]

def NON_CONTENT_LINK_HINTS : List String :=
  ["login", "sign-in", "signin", "register", "account", "privacy", "cookies", "terms",
   "contact", "help", "newsletter", "podcast", "audio", "video", "weather", "sport"]

def LOW_SIGNAL_ANCHOR_TEXT : List String :=
  ["home", "menu", "more", "sign in", "register", "login", "account", "notifications"]

def SECTION_PATH_HINTS : List String :=
  ["/", "/news", "/sport", "/weather", "/iplayer", "/sounds", "/food", "/travel", "/culture"]

/-! ## NoisePruner (`_attrs_to_text`, `_looks_like_noise`, `_prune_noise`) -/

/-- `_attrs_to_text(tag)`: the tag's id, classes, role and aria-label values
(truthy ones only; a class list is extended wholesale), joined with spaces
and lowercased. -/
def attrsToText (a : Attrs) : String :=
  let vals :=
    (match a.id with | some s => if s = "" then [] else [s] | none => []) ++
    a.classes ++
    (match a.role with | some s => if s = "" then [] else [s] | none => []) ++
    (match a.ariaLabel with | some s => if s = "" then [] else [s] | none => [])
  pyLower (joinSpace vals)

/-- `_looks_like_noise(tag)`. -/
def looksLikeNoise (a : Attrs) : Bool :=
  NOISE_HINTS.any (fun hint => strContains (attrsToText a) hint)

/-- One decompose pass: remove every (strict-descendant) element for which
`bad` holds, recursively.  Deleting an element deletes its subtree, exactly
as `tag.decompose()` does. -/
def pruneIfList (bad : String → Attrs → Bool) : NodeList → NodeList
  | .nil => .nil
  | .cons (.text s) rest => .cons (.text s) (pruneIfList bad rest)
  | .cons (.elem t a cs) rest =>
    if bad t a then pruneIfList bad rest
    else .cons (.elem t a (pruneIfList bad cs)) (pruneIfList bad rest)

def isNoiseTag (t : String) (_ : Attrs) : Bool := NOISE_TAGS.contains t

def isNoiseHinted (_ : String) (a : Attrs) : Bool := looksLikeNoise a

/-- `_prune_noise(container)`: first decompose all `NOISE_TAGS` elements,
then decompose all remaining elements whose attribute text matches a noise
hint.  The container node itself is never removed (`find_all` only yields
descendants). -/
def pruneNoise : Node → Node
  | .text s => .text s
  | .elem t a cs => .elem t a (pruneIfList isNoiseHinted (pruneIfList isNoiseTag cs))

/-! ## ParagraphExtractor (`_clean_text`, `_extract_paragraph_text`) -/

/-- `_clean_text(text)`: collapse whitespace, strip, undo three mojibake
byte sequences, collapse and strip again. -/
def cleanText (t : String) : String :=
  let cleaned := pyStrip (squashWs t)
  let cleaned := pyReplace cleaned "Â" " "
  let cleaned := pyReplace cleaned "â\u0080\u0099" "'"
  let cleaned := pyReplace cleaned "â\u0080\u0093" "-"
  pyStrip (squashWs cleaned)

def BAD_PARAGRAPH_HINTS : List String :=
  ["accessibility help", "cookie", "privacy policy", "sign in"]

/-- `_extract_paragraph_text(container)`: clean every `<p>` descendant's
text, drop blocks under 8 words or containing a low-signal phrase, join the
survivors with single spaces and strip. -/
def extractParagraphText (container : Node) : String :=
  let ps := container.findAll (fun t _ => t == "p")
  let paragraphs := ps.filterMap (fun p =>
    let text := cleanText p.getTextSp
    if (pyWords text).length < 8 then none
    else if BAD_PARAGRAPH_HINTS.any (fun hint => strContains (pyLower text) hint) then none
    else some text)
  pyStrip (joinSpace paragraphs)

/-! ## ContainerSelector (`_pick_content_container`) -/

/-- One preferred selector: `soup.select_one(sel)` is the first matching
descendant in document order; it is kept only if its plain-text preview has
at least 60 words, otherwise the next selector is tried. -/
def tryPreferred (soup : Node) (q : String → Attrs → Bool) : Option Node :=
  (soup.findAll q).head?.bind (fun candidate =>
    if 60 ≤ candidate.wc then some candidate else none)

/-- The scan over `section/div/main/article` elements: content-hinted,
not noise-hinted, maximal word count with a strict comparison against a
running best that starts at 0 (so the first qualifying element wins ties,
and 0-word elements never qualify). -/
def bestHintedScan : List Node → Option Node → Nat → Option Node
  | [], best, _ => best
  | c :: rest, best, bestWords =>
    let attrsText := attrsToText c.attrsOf
    if ¬ (CONTENT_HINTS.any (fun hint => strContains attrsText hint)) then
      bestHintedScan rest best bestWords
    else if NOISE_HINTS.any (fun hint => strContains attrsText hint) then
      bestHintedScan rest best bestWords
    else if bestWords < c.wc then bestHintedScan rest (some c) c.wc
    else bestHintedScan rest best bestWords

/-- `_pick_content_container(soup)`: try `article`, `main`, `[role='main']`
in order (each kept only at ≥ 60 preview words); otherwise the best
content-hinted `section/div/main/article`; otherwise the whole document. -/
def pickContentContainer (soup : Node) : Node :=
  let preferred :=
    (tryPreferred soup (fun t _ => t == "article")).orElse (fun _ =>
    (tryPreferred soup (fun t _ => t == "main")).orElse (fun _ =>
     tryPreferred soup (fun _ a => a.role == some "main")))
  match preferred with
  | some c => c
  | none =>
    match bestHintedScan
        (soup.findAll (fun t _ => ["section", "div", "main", "article"].contains t))
        none 0 with
    | some best => best
    | none => soup

/-! ## ReadabilityFallback / primary ladder (`extract_readable_text`)

`_extract_with_readability` calls the third-party `readability.Document`
library (absent from the repository; `Document` may even be `None`), so its
result enters the embedding as the parameter `readability_text` — the value
the Python code binds before the ladder runs dry.  An unavailable or failed
readability library yields `""`. -/

/-- The repeated Python idiom
`paragraph_text if paragraph_text else _clean_text(container.get_text(" ", strip=True))`. -/
def paragraphsOrFlat (container : Node) : String :=
  let paragraphText := extractParagraphText container
  if paragraphText ≠ "" then paragraphText
  else cleanText container.getTextSp

/-- `extract_readable_text(html)` with `soup` the parsed tree of `html` and
`readability_text` the (externally computed) `_extract_with_readability(html)`. -/
def extractReadableText (readability_text : String) (soup : Node) : String :=
  if 80 ≤ (pyWords readability_text).length then readability_text
  else
    let content_root := pruneNoise (pickContentContainer soup)
    let text := paragraphsOrFlat content_root
    let text :=
      if (pyWords text).length < 60 then
        paragraphsOrFlat (pruneNoise soup)
      else text
    if (pyWords text).length < 40 ∧ readability_text ≠ "" then readability_text
    else text

/-- The primary path: container selection on the raw tree, then noise
pruning of the selected container, then paragraph extraction. -/
def primaryResult (soup : Node) : String :=
  paragraphsOrFlat (pruneNoise (pickContentContainer soup))

/-- The whole-document reprocessing path: noise pruning of the whole tree
(no container selection), then paragraph extraction. -/
def wholeDocResult (soup : Node) : String :=
  paragraphsOrFlat (pruneNoise soup)

/-! ## WordBoundedSummarizer (`summarize_words`) -/

/-- `summarize_words(text, target_words)`.  `target_words` is a count
(`Nat`); the repository's callers clamp it to 80..400. -/
def summarizeWords (text : String) (target_words : Nat) : String :=
  if text = "" then ""
  else
    let words := pyWords text
    if words.length ≤ target_words then joinSpace words
    else joinSpace (words.take target_words)

/-! ## LinkScorer (`_link_score`, `extract_links`)

A URL is kept in parsed form (the six components of
`urllib.parse.urlparse`); `urljoin` + `urlparse` — Python stdlib, external
to the repository — enter `extractLinks` as the `resolve` parameter. -/

structure Url where
  scheme : String
  netloc : String
  path : String
  params : String
  query : String
  fragment : String
deriving DecidableEq, Repr

/-- One candidate position in the pattern scan: `re.search(pat, s)` holds
iff the pattern matches at some suffix. -/
def scanSuffixes (p : List Char → Bool) : List Char → Bool
  | [] => p []
  | c :: cs => p (c :: cs) || scanSuffixes p cs

/-- `re.search(r"/news/(live|topics?)(/|$)", path)`: some position starts
with `/news/live`, `/news/topic` or `/news/topics`, followed by `/` or the
end of the string. -/
def matchesLiveOrTopic (path : String) : Bool :=
  scanSuffixes
    (fun l =>
      ["/news/live", "/news/topics", "/news/topic"].any (fun pat =>
        pat.data.isPrefixOf l &&
          (match l.drop pat.data.length with
           | [] => true
           | c :: _ => c == '/')))
    path.data

/-- `re.search(r"/news/articles/[a-z0-9]+", path)`: some position starts
with `/news/articles/` followed by at least one `[a-z0-9]` character. -/
def matchesArticleId (path : String) : Bool :=
  scanSuffixes
    (fun l =>
      "/news/articles/".data.isPrefixOf l &&
        (match l.drop "/news/articles/".length with
         | [] => false
         | c :: _ => (('a' ≤ c && c ≤ 'z') || ('0' ≤ c && c ≤ '9'))))
    path.data

/-- `_link_score(start_host, normalized_url, anchor_text)`: the additive
heuristic score, exactly the chain of adjustments of the source. -/
def linkScore (start_host : String) (normalized_url : Url) (anchor_text : String) : Int :=
  let host := pyLower normalized_url.netloc
  let path := pyLower normalized_url.path
  let anchor_lower := pyLower anchor_text
  let score : Int := 0
  let score := if pyEndsWith host start_host then score + 2 else score
  let path_depth := ((pySplitChar path '/').filter (fun piece => piece ≠ "")).length
  let score := if 2 ≤ path_depth then score + 1 else score
  let score :=
    if ["/news/", "/article", "/story", "/live", "/202"].any
        (fun token => strContains path token) then score + 2 else score
  let anchor_words := (pyWords anchor_text).length
  let score :=
    if 4 ≤ anchor_words ∧ anchor_words ≤ 20 then score + 2
    else if anchor_words ≤ 1 then score - 2
    else score
  let score := if LOW_SIGNAL_ANCHOR_TEXT.contains anchor_lower then score - 4 else score
  let score :=
    if NON_CONTENT_LINK_HINTS.any
        (fun hint => strContains (path ++ " " ++ anchor_lower) hint) then score - 3
    else score
  let path_no_trailing := if path ≠ "/" then rstripSlash path else path
  let score := if SECTION_PATH_HINTS.contains path_no_trailing then score - 4 else score
  let score := if matchesLiveOrTopic path then score - 2 else score
  let score := if matchesArticleId path then score + 3 else score
  score

/-- A deduplicated candidate of the `links` list built by `extract_links`
(`{"url", "anchor_text", "score", "index"}`). -/
structure LinkItem where
  url : Url
  anchor_text : String
  score : Int
  index : Nat
deriving DecidableEq, Repr

/-- An output entry (`{"url", "anchor_text"}`). -/
structure SelLink where
  url : Url
  anchor_text : String
deriving DecidableEq, Repr

def LinkItem.toSel (it : LinkItem) : SelLink := ⟨it.url, it.anchor_text⟩

/-- The anchor enumeration loop: for each `<a href=...>` descendant (with
its `enumerate` index), strip the href, normalize the anchor text, skip
empty/fragment/`javascript:`/`mailto:`/`tel:` targets, resolve to an
absolute URL, keep http(s) only, strip the fragment and deduplicate
first-occurrence-first via `seen`. -/
def buildLinks (resolve : String → Url) (start_host : String) :
    List Node → Nat → List Url → List LinkItem
  | [], _, _ => []
  | anchor :: rest, index, seen =>
    let href := pyStrip (anchor.attrsOf.href.getD "")
    let anchor_text := joinSpace (pyWords anchor.getTextSp)
    if href = "" ∨ pyStartsWith href "#" then
      buildLinks resolve start_host rest (index + 1) seen
    else if pyStartsWith href "javascript:" ∨ pyStartsWith href "mailto:" ∨
        pyStartsWith href "tel:" then
      buildLinks resolve start_host rest (index + 1) seen
    else
      let absolute := resolve href
      if ¬ (absolute.scheme = "http" ∨ absolute.scheme = "https") then
        buildLinks resolve start_host rest (index + 1) seen
      else
        let normalized : Url := { absolute with fragment := "" }
        if normalized ∈ seen then
          buildLinks resolve start_host rest (index + 1) seen
        else
          { url := normalized, anchor_text := anchor_text,
            score := linkScore start_host normalized anchor_text, index := index } ::
            buildLinks resolve start_host rest (index + 1) (normalized :: seen)

/-- `links.sort(key=lambda item: (-item["score"], item["index"]))`:
ascending lexicographic order on (negated score, discovery index).  The
key is injective on the deduplicated list (indices are distinct), so the
sorted result is unique and any stable sort matches Python's stable
`list.sort`. -/
def linkLE (x y : LinkItem) : Bool :=
  y.score < x.score || (x.score == y.score && x.index ≤ y.index)

def sortLinks (links : List LinkItem) : List LinkItem :=
  links.insertionSort (fun x y => linkLE x y = true)

/-- The selection loop: stop when full; past `min_slots` filled entries no
negative-scoring candidate is admitted. -/
def selectLoop (max_links min_slots : Nat) : List LinkItem → List LinkItem → List LinkItem
  | [], acc => acc
  | it :: rest, acc =>
    if max_links ≤ acc.length then acc
    else if it.score < 0 ∧ min_slots ≤ acc.length then
      selectLoop max_links min_slots rest acc
    else selectLoop max_links min_slots rest (acc ++ [it])

/-- `extract_links(start_url, html, max_links)` with `soup` the parsed
tree, `start_url` in parsed form and `resolve` standing for
`urlparse(urljoin(start_url, href))`. -/
def extractLinks (resolve : String → Url) (start_url : Url) (soup : Node)
    (max_links : Nat) : List SelLink :=
  let content_root := pickContentContainer soup
  let anchors := content_root.findAll (fun t a => t == "a" && a.href.isSome)
  let start_host := pyLower start_url.netloc
  let links := sortLinks (buildLinks resolve start_host anchors 0 [])
  let selected := selectLoop max_links (max 2 (max_links / 2)) links []
  let selected := if selected = [] then links.take max_links else selected
  selected.map LinkItem.toSel

/-! ## Lemmas: whitespace splitting and joining -/

theorem splitWsAux_nil (acc : List Char) :
    splitWsAux [] acc = if acc = [] then [] else [acc.reverse] := rfl

/-- Feeding a run of non-whitespace characters just extends the current
word accumulator. -/
theorem splitWsAux_append_word (w : List Char) (h : ∀ c ∈ w, pyIsSpace c = false) :
    ∀ l acc, splitWsAux (w ++ l) acc = splitWsAux l (w.reverse ++ acc) := by
  induction w with
  | nil => intro l acc; simp
  | cons c w ih =>
    intro l acc
    have hc : pyIsSpace c = false := h c (by simp)
    have hw : ∀ c ∈ w, pyIsSpace c = false := fun d hd => h d (by simp [hd])
    simp only [List.cons_append, splitWsAux, hc, Bool.false_eq_true, if_false]
    rw [show (w.append l) = w ++ l from rfl, ih hw l (c :: acc)]
    simp [List.append_assoc]

/-- Every token produced by Python `split()` is non-empty and contains no
whitespace. -/
theorem splitWsAux_tokens :
    ∀ (l acc : List Char), (∀ c ∈ acc, pyIsSpace c = false) →
      ∀ w ∈ splitWsAux l acc, w ≠ [] ∧ ∀ c ∈ w, pyIsSpace c = false := by
  intro l
  induction l with
  | nil =>
    intro acc hacc w hw
    rw [splitWsAux_nil] at hw
    by_cases h : acc = []
    · simp [h] at hw
    · simp [h] at hw
      subst hw
      refine ⟨by simpa using h, ?_⟩
      intro c hc
      exact hacc c (List.mem_reverse.mp hc)
  | cons c cs ih =>
    intro acc hacc w hw
    by_cases hc : pyIsSpace c = true
    · simp only [splitWsAux, hc, if_true] at hw
      by_cases h : acc = []
      · simp only [h, if_true] at hw
        exact ih [] (by simp) w hw
      · simp only [h, if_false] at hw
        rcases List.mem_cons.mp hw with rfl | hw
        · refine ⟨by simpa using h, ?_⟩
          intro d hd
          exact hacc d (List.mem_reverse.mp hd)
        · exact ih [] (by simp) w hw
    · rw [Bool.not_eq_true] at hc
      simp only [splitWsAux, hc, Bool.false_eq_true, if_false] at hw
      refine ih (c :: acc) ?_ w hw
      intro d hd
      rcases List.mem_cons.mp hd with rfl | hd
      · exact hc
      · exact hacc d hd

/-- Splitting the single-space join of clean tokens recovers the tokens. -/
theorem splitWs_joinSep (ws : List (List Char))
    (h : ∀ w ∈ ws, w ≠ [] ∧ ∀ c ∈ w, pyIsSpace c = false) :
    splitWs (joinSep [' '] ws) = ws := by
  induction ws with
  | nil => rfl
  | cons w ws ih =>
    rcases h w (by simp) with ⟨hne, hclean⟩
    have hrest : ∀ v ∈ ws, v ≠ [] ∧ ∀ c ∈ v, pyIsSpace c = false :=
      fun v hv => h v (by simp [hv])
    cases ws with
    | nil =>
      have : splitWsAux (w ++ []) [] = [w] := by
        rw [splitWsAux_append_word w hclean, splitWsAux_nil]
        simp [hne]
      simpa [splitWs, joinSep] using this
    | cons v vs =>
      have key : splitWsAux (w ++ ' ' :: joinSep [' '] (v :: vs)) [] = w :: v :: vs := by
        rw [splitWsAux_append_word w hclean]
        have hsp : pyIsSpace ' ' = true := rfl
        simp only [List.append_nil, splitWsAux, hsp, if_true]
        rw [if_neg (by simpa using hne)]
        rw [List.reverse_reverse]
        exact congrArg (w :: ·) (ih hrest)
      simpa [splitWs, joinSep] using key

theorem data_mk (l : List Char) : (String.mk l).data = l := rfl

theorem mk_data (s : String) : String.mk s.data = s := rfl

/-- `pyWords` tokens are non-empty and whitespace-free. -/
theorem pyWords_tokens (s : String) :
    ∀ w ∈ pyWords s, w ≠ "" ∧ ∀ c ∈ w.data, pyIsSpace c = false := by
  intro w hw
  rcases List.mem_map.mp hw with ⟨l, hl, rfl⟩
  rcases splitWsAux_tokens s.data [] (by simp) l hl with ⟨hne, hclean⟩
  refine ⟨?_, hclean⟩
  intro hcontra
  exact hne (congrArg String.data hcontra)

/-- String-level split/join roundtrip. -/
theorem pyWords_joinSpace (ws : List String)
    (h : ∀ w ∈ ws, w ≠ "" ∧ ∀ c ∈ w.data, pyIsSpace c = false) :
    pyWords (joinSpace ws) = ws := by
  unfold pyWords joinSpace
  rw [data_mk, splitWs_joinSep]
  · rw [List.map_map]
    simp [Function.comp_def]
  · intro w hw
    rcases List.mem_map.mp hw with ⟨v, hv, rfl⟩
    rcases h v hv with ⟨hne, hclean⟩
    refine ⟨?_, hclean⟩
    intro hcontra
    apply hne
    have := congrArg String.mk hcontra
    simpa using this

theorem pyWords_empty : pyWords "" = [] := rfl

theorem joinSpace_nil : joinSpace [] = "" := rfl

/-- C3: for every text and every target word count `k ≥ 0`, the word count
of the summarizer's output equals `min(k, word count of the input)`:
`len(summarize_words(text, k).split()) == min(k, len(text.split()))`. -/
theorem claim_C3_summarizer_wordcount (text : String) (target_words : Nat) :
    (pyWords (summarizeWords text target_words)).length =
      min target_words (pyWords text).length := by
  unfold summarizeWords
  by_cases h0 : text = ""
  · subst h0
    simp [pyWords_empty]
  · simp only [h0, if_false]
    by_cases hle : (pyWords text).length ≤ target_words
    · simp only [hle, if_true]
      rw [pyWords_joinSpace (pyWords text) (pyWords_tokens text)]
      omega
    · simp only [hle, if_false]
      rw [pyWords_joinSpace ((pyWords text).take target_words)
        (fun w hw => pyWords_tokens text w (List.take_subset _ _ hw))]
      rw [List.length_take]

/-- C9 fails on the code: for an input whose words are separated by more
than one space, `summarize_words` does not return the input unchanged even
though the input has fewer words than the target — it rejoins the words
with single spaces. -/
theorem claim_C9_counterexample :
    (pyWords "a  b").length ≤ 5 ∧ summarizeWords "a  b" 5 = "a b" ∧
      "a b" ≠ "a  b" := by
  refine ⟨by decide, by decide, by decide⟩

/-- C9 amended: for every input whose word count is at most the target,
the summarizer returns the input's words rejoined with single spaces (the
whitespace-normalized input, which equals the input exactly when the input
is already single-space separated); the word sequence is preserved. -/
theorem claim_C9_amended_identity_on_short (text : String) (k : Nat)
    (h : (pyWords text).length ≤ k) :
    summarizeWords text k = joinSpace (pyWords text) ∧
      pyWords (summarizeWords text k) = pyWords text := by
  have key : summarizeWords text k = joinSpace (pyWords text) := by
    unfold summarizeWords
    by_cases h0 : text = ""
    · subst h0
      simp [pyWords_empty, joinSpace_nil]
    · rw [if_neg h0]
      simp only [h, if_true]
  refine ⟨key, ?_⟩
  rw [key]
  exact pyWords_joinSpace (pyWords text) (pyWords_tokens text)

/-- C9 amended, witnessed at a concrete input with a double space. -/
theorem claim_C9_witness :
    summarizeWords "a  b" 5 = joinSpace (pyWords "a  b") :=
  (claim_C9_amended_identity_on_short "a  b" 5 (by decide)).1

/-! ## Lemmas: noise pruning -/

/-- No element in the forest (at any depth) satisfies `bad`. -/
def allCleanList (bad : String → Attrs → Bool) : NodeList → Bool
  | .nil => true
  | .cons (.text _) rest => allCleanList bad rest
  | .cons (.elem t a cs) rest => !bad t a && allCleanList bad cs && allCleanList bad rest

theorem allCleanList_pruneIfList (bad : String → Attrs → Bool) :
    ∀ l : NodeList, allCleanList bad (pruneIfList bad l) = true := by
  intro l
  induction l using pruneIfList.induct bad with
  | case1 => simp [pruneIfList, allCleanList]
  | case2 s rest ih => simpa [pruneIfList, allCleanList] using ih
  | case3 t a cs rest hbad ih => simpa [pruneIfList, hbad] using ih
  | case4 t a cs rest hbad ihcs ihrest =>
    simp [pruneIfList, hbad, allCleanList, ihcs, ihrest]

theorem pruneIfList_of_allClean (bad : String → Attrs → Bool) :
    ∀ l : NodeList, allCleanList bad l = true → pruneIfList bad l = l := by
  intro l
  induction l using pruneIfList.induct bad with
  | case1 => intro _; simp [pruneIfList]
  | case2 s rest ih =>
    intro h
    simp only [allCleanList] at h
    simp [pruneIfList, ih h]
  | case3 t a cs rest hbad ih =>
    intro h
    simp [allCleanList, hbad] at h
  | case4 t a cs rest hbad ihcs ihrest =>
    intro h
    simp only [allCleanList, Bool.and_eq_true] at h
    simp [pruneIfList, hbad, ihcs h.1.2, ihrest h.2]

/-- Pruning with any other predicate keeps a clean forest clean (it only
deletes elements). -/
theorem allCleanList_pruneIfList_other (bad other : String → Attrs → Bool) :
    ∀ l : NodeList, allCleanList bad l = true →
      allCleanList bad (pruneIfList other l) = true := by
  intro l
  induction l using pruneIfList.induct other with
  | case1 => intro _; simp [pruneIfList, allCleanList]
  | case2 s rest ih =>
    intro h
    simp only [allCleanList] at h
    simpa [pruneIfList, allCleanList] using ih h
  | case3 t a cs rest hother ih =>
    intro h
    simp only [allCleanList, Bool.and_eq_true] at h
    simpa [pruneIfList, hother] using ih h.2
  | case4 t a cs rest hother ihcs ihrest =>
    intro h
    simp only [allCleanList, Bool.and_eq_true] at h
    simp [pruneIfList, hother, allCleanList, h.1.1, ihcs h.1.2, ihrest h.2]

/-- C7: `NoisePruner` is idempotent — pruning an already-pruned tree
changes nothing, because matched elements were deleted, not flagged. -/
theorem claim_C7_prune_noise_idempotent (n : Node) :
    pruneNoise (pruneNoise n) = pruneNoise n := by
  cases n with
  | text s => rfl
  | elem t a cs =>
    simp only [pruneNoise]
    congr 1
    have h1 : allCleanList isNoiseTag (pruneIfList isNoiseTag cs) = true :=
      allCleanList_pruneIfList isNoiseTag cs
    have h2 : allCleanList isNoiseTag
        (pruneIfList isNoiseHinted (pruneIfList isNoiseTag cs)) = true :=
      allCleanList_pruneIfList_other isNoiseTag isNoiseHinted _ h1
    rw [pruneIfList_of_allClean isNoiseTag _ h2]
    exact pruneIfList_of_allClean isNoiseHinted _
      (allCleanList_pruneIfList isNoiseHinted (pruneIfList isNoiseTag cs))

/-! ## Lemmas: the fallback ladder of `extract_readable_text` -/

/-- The ladder of `extract_readable_text`, abstracted over the two path
results: readability text at ≥ 80 words wins outright; otherwise the
primary result at ≥ 60 words; otherwise the whole-document rerun at ≥ 40
words; otherwise a non-empty readability text; otherwise the
whole-document rerun. -/
def extractLadder (readability_text primary whole : String) : String :=
  if 80 ≤ (pyWords readability_text).length then readability_text
  else if 60 ≤ (pyWords primary).length then primary
  else if 40 ≤ (pyWords whole).length then whole
  else if readability_text ≠ "" then readability_text
  else whole

theorem extractReadableText_eq_ladder (r : String) (soup : Node) :
    extractReadableText r soup =
      extractLadder r (primaryResult soup) (wholeDocResult soup) := by
  unfold extractReadableText extractLadder primaryResult wholeDocResult
  by_cases h80 : 80 ≤ (pyWords r).length
  · simp only [h80, if_true]
  · simp only [h80, if_false]
    by_cases h60 : (pyWords (paragraphsOrFlat (pruneNoise (pickContentContainer soup)))).length < 60
    · simp only [h60, if_true]
      have h60' : ¬ 60 ≤ (pyWords (paragraphsOrFlat (pruneNoise (pickContentContainer soup)))).length := by
        omega
      simp only [h60', if_false]
      by_cases h40 : (pyWords (paragraphsOrFlat (pruneNoise soup))).length < 40
      · have h40' : ¬ 40 ≤ (pyWords (paragraphsOrFlat (pruneNoise soup))).length := by omega
        by_cases hr : r = ""
        · subst hr
          simp [h40, h40']
        · simp [h40, h40', hr]
      · have h40' : 40 ≤ (pyWords (paragraphsOrFlat (pruneNoise soup))).length := by omega
        have : ¬ ((pyWords (paragraphsOrFlat (pruneNoise soup))).length < 40 ∧ r ≠ "") := by
          rintro ⟨h, _⟩
          omega
        simp [this, h40']
    · have h60' : 60 ≤ (pyWords (paragraphsOrFlat (pruneNoise (pickContentContainer soup)))).length := by
        omega
      simp only [h60, if_false, h60', if_true]
      have : ¬ ((pyWords (paragraphsOrFlat (pruneNoise (pickContentContainer soup)))).length < 40 ∧ r ≠ "") := by
        rintro ⟨h, _⟩
        omega
      simp [this]

/-- C1: the fallback ladder thresholds.  Readability at ≥ 80 words is the
final answer, taking precedence over the primary path; below that, a
primary result of ≥ 60 words stands; below 60 the document is reprocessed
from noise-pruning on the whole tree (no container selection) and
re-extracted; if that rerun is under 40 words and a non-empty readability
result exists, the readability result is used even below its own 80-word
bar. -/
theorem claim_C1_fallback_ladder (r : String) (soup : Node) :
    extractReadableText r soup =
      if 80 ≤ (pyWords r).length then r
      else if 60 ≤ (pyWords (primaryResult soup)).length then primaryResult soup
      else if 40 ≤ (pyWords (wholeDocResult soup)).length then wholeDocResult soup
      else if r ≠ "" then r
      else wholeDocResult soup :=
  extractReadableText_eq_ladder r soup

/-! ## Concrete example documents -/

/-- `n` copies of the word `w`, single-space separated. -/
def wordsRep (w : String) (n : Nat) : String := joinSpace (List.replicate n w)

/-- A paragraph element with the given text. -/
def para (s : String) : Node := .elem "p" {} (nodesOf [.text s])

/-- A document whose `<article>` holds a single healthy 65-word paragraph:
the primary path succeeds with 65 words. -/
def docGoodArticle : Node :=
  .elem "[document]" {} (nodesOf [.elem "article" {} (nodesOf [para (wordsRep "w" 65)])])

/-- An 80-word readability result, distinct from any primary text of the
example documents. -/
def readability80 : String := wordsRep "r" 80

/-- A document where the `<article>` preview passes the 60-word bar only
thanks to text inside a `<nav>` child: after pruning, its paragraphs hold
10 words, while the `<main>` sibling holds 65 clean words. -/
def docNavPadded : Node :=
  .elem "[document]" {} (nodesOf
    [.elem "article" {} (nodesOf
      [.elem "nav" {} (nodesOf [para (wordsRep "n" 55)]), para (wordsRep "w" 10)]),
     .elem "main" {} (nodesOf [para (wordsRep "m" 65)])])

/-- A document whose only content sits inside an `<aside>`: the `<article>`
inside it previews at 70 words and yields 50 words after pruning its
`promo` child, but the whole-document rerun deletes the `<aside>` (a noise
tag) and with it every word. -/
def docAsideOnly : Node :=
  .elem "[document]" {} (nodesOf
    [.elem "aside" {} (nodesOf
      [.elem "article" {} (nodesOf
        [para (wordsRep "w" 50),
         .elem "div" { classes := ["promo"] } (nodesOf [para (wordsRep "p" 20)])])])])

/-! ## Claims C2, C4, C10 -/

/-- C2 fails on the code: the readability strategy is not tried only on
insufficient primary yield — it is computed first and a readability result
of ≥ 80 words wins even when the primary path would have yielded ≥ 60
words.  `docGoodArticle` has a 65-word primary result, yet with an 80-word
readability result the extractor returns the readability text. -/
theorem claim_C2_counterexample :
    60 ≤ (pyWords (primaryResult docGoodArticle)).length ∧
      extractReadableText readability80 docGoodArticle = readability80 ∧
      readability80 ≠ primaryResult docGoodArticle :=
  ⟨by decide, by decide, by decide⟩

/-- C2 amended: when the primary path yields at least 60 words AND the
readability result is below its 80-word bar, the extraction result is the
primary path's text. -/
theorem claim_C2_amended_primary_wins (r : String) (soup : Node)
    (h80 : (pyWords r).length < 80)
    (h60 : 60 ≤ (pyWords (primaryResult soup)).length) :
    extractReadableText r soup = primaryResult soup := by
  rw [extractReadableText_eq_ladder]
  unfold extractLadder
  rw [if_neg (by omega), if_pos h60]

/-- C2 amended, witnessed on the 65-word article document with an empty
readability result. -/
theorem claim_C2_witness :
    extractReadableText "" docGoodArticle = primaryResult docGoodArticle :=
  claim_C2_amended_primary_wins "" docGoodArticle (by decide) (by decide)

/-- Modelled from the spec: the control flow of §2/§4.2/§4.3 with
NoisePruner applied to the whole tree BEFORE ContainerSelector, so the
selector's word counts exclude pruned noise; everything else as in
`extract_readable_text`.  Used only to compare against the implemented
order. -/
def extractReadableTextPruneFirst (readability_text : String) (soup : Node) : String :=
  if 80 ≤ (pyWords readability_text).length then readability_text
  else
    let pruned := pruneNoise soup
    let content_root := pickContentContainer pruned
    let text := paragraphsOrFlat content_root
    let text :=
      if (pyWords text).length < 60 then paragraphsOrFlat pruned
      else text
    if (pyWords text).length < 40 ∧ readability_text ≠ "" then readability_text
    else text

/-- C4 fails on the code: container selection runs on the raw, unpruned
tree (its preview word counts include noise elements), and pruning is
applied only afterwards to the selected container.  On `docNavPadded` the
`<article>` passes the 60-word preview only thanks to its `<nav>` text, so
the implemented order and the spec's prune-first order produce different
results (75 words versus the 65-word `<main>` text). -/
theorem claim_C4_counterexample :
    extractReadableText "" docNavPadded ≠ extractReadableTextPruneFirst "" docNavPadded ∧
      (pyWords (extractReadableText "" docNavPadded)).length = 75 ∧
      (pyWords (extractReadableTextPruneFirst "" docNavPadded)).length = 65 :=
  ⟨by decide, by decide, by decide⟩

/-- C4 amended: in the primary path the container is selected from the raw
tree and noise pruning is applied after selection, to the selected
container only; the whole-document retry prunes the full tree.  The
equation exhibits the order of operations for every input. -/
theorem claim_C4_amended_selection_before_pruning (r : String) (soup : Node) :
    extractReadableText r soup =
      extractLadder r (paragraphsOrFlat (pruneNoise (pickContentContainer soup)))
        (paragraphsOrFlat (pruneNoise soup)) :=
  extractReadableText_eq_ladder r soup

/-- C10: when the primary path yields fewer than 60 words (and readability
is below its 80-word bar), the whole-document rerun unconditionally
replaces the primary result — even when it has strictly fewer words — and
if that rerun is below 40 words with no readability text, the rerun is the
final output. -/
theorem claim_C10_whole_doc_replaces (r : String) (soup : Node)
    (h80 : (pyWords r).length < 80)
    (h60 : (pyWords (primaryResult soup)).length < 60) :
    extractReadableText r soup =
      if (pyWords (wholeDocResult soup)).length < 40 ∧ r ≠ "" then r
      else wholeDocResult soup := by
  rw [extractReadableText_eq_ladder]
  unfold extractLadder
  rw [if_neg (by omega), if_neg (by omega)]
  by_cases h40 : 40 ≤ (pyWords (wholeDocResult soup)).length
  · rw [if_pos h40, if_neg ?_]
    rintro ⟨h, _⟩
    omega
  · rw [if_neg h40]
    by_cases hr : r = ""
    · subst hr
      simp
    · have : (pyWords (wholeDocResult soup)).length < 40 ∧ r ≠ "" := ⟨by omega, hr⟩
      simp [hr, this]

/-- C10 witnessed on `docAsideOnly`: the primary result has 50 words, the
whole-document rerun has 0 (the `<aside>` and everything in it is pruned),
and with no readability text the empty rerun is the final output. -/
theorem claim_C10_witness :
    (pyWords (wholeDocResult docAsideOnly)).length <
        (pyWords (primaryResult docAsideOnly)).length ∧
      extractReadableText "" docAsideOnly = wholeDocResult docAsideOnly := by
  refine ⟨by decide, ?_⟩
  have h := claim_C10_whole_doc_replaces "" docAsideOnly (by decide) (by decide)
  rwa [if_neg (by decide)] at h

/-! ## Claim C8: the host bonus of `_link_score` -/

/-- Modelled from the spec: "its host is the start host or a subdomain of
it" — equality, or a suffix preceded by a dot. -/
def isSubdomainOrSelf (host start_host : String) : Bool :=
  host == start_host || pyEndsWith host ("." ++ start_host)

/-- Modelled from the spec: `_link_score` with the host bonus granted
exactly on the spec's subdomain condition instead of the code's plain
suffix test; every other term as in the source.  Used only to compare
against the implemented scoring. -/
def linkScoreSpecHost (start_host : String) (normalized_url : Url) (anchor_text : String) : Int :=
  let host := pyLower normalized_url.netloc
  let path := pyLower normalized_url.path
  let anchor_lower := pyLower anchor_text
  let score : Int := 0
  let score := if isSubdomainOrSelf host start_host then score + 2 else score
  let path_depth := ((pySplitChar path '/').filter (fun piece => piece ≠ "")).length
  let score := if 2 ≤ path_depth then score + 1 else score
  let score :=
    if ["/news/", "/article", "/story", "/live", "/202"].any
        (fun token => strContains path token) then score + 2 else score
  let anchor_words := (pyWords anchor_text).length
  let score :=
    if 4 ≤ anchor_words ∧ anchor_words ≤ 20 then score + 2
    else if anchor_words ≤ 1 then score - 2
    else score
  let score := if LOW_SIGNAL_ANCHOR_TEXT.contains anchor_lower then score - 4 else score
  let score :=
    if NON_CONTENT_LINK_HINTS.any
        (fun hint => strContains (path ++ " " ++ anchor_lower) hint) then score - 3
    else score
  let path_no_trailing := if path ≠ "/" then rstripSlash path else path
  let score := if SECTION_PATH_HINTS.contains path_no_trailing then score - 4 else score
  let score := if matchesLiveOrTopic path then score - 2 else score
  let score := if matchesArticleId path then score + 3 else score
  score

/-- The score chain of `_link_score` without its host term, used to
isolate the host bonus. -/
def linkScoreSansHost (normalized_url : Url) (anchor_text : String) : Int :=
  let path := pyLower normalized_url.path
  let anchor_lower := pyLower anchor_text
  let score : Int := 0
  let path_depth := ((pySplitChar path '/').filter (fun piece => piece ≠ "")).length
  let score := if 2 ≤ path_depth then score + 1 else score
  let score :=
    if ["/news/", "/article", "/story", "/live", "/202"].any
        (fun token => strContains path token) then score + 2 else score
  let anchor_words := (pyWords anchor_text).length
  let score :=
    if 4 ≤ anchor_words ∧ anchor_words ≤ 20 then score + 2
    else if anchor_words ≤ 1 then score - 2
    else score
  let score := if LOW_SIGNAL_ANCHOR_TEXT.contains anchor_lower then score - 4 else score
  let score :=
    if NON_CONTENT_LINK_HINTS.any
        (fun hint => strContains (path ++ " " ++ anchor_lower) hint) then score - 3
    else score
  let path_no_trailing := if path ≠ "/" then rstripSlash path else path
  let score := if SECTION_PATH_HINTS.contains path_no_trailing then score - 4 else score
  let score := if matchesLiveOrTopic path then score - 2 else score
  let score := if matchesArticleId path then score + 3 else score
  score

/-- C8 fails on the code: the implemented condition is a plain string
suffix test `host.endswith(start_host)`, which also fires for hosts that
are neither the start host nor one of its subdomains.  With start host
`bbc.com`, the host `notbbc.com` receives the +2 bonus (score 4 instead of
the 2 the spec's subdomain condition would give). -/
theorem claim_C8_counterexample :
    isSubdomainOrSelf "notbbc.com" "bbc.com" = false ∧
      linkScore "bbc.com" ⟨"https", "notbbc.com", "", "", "", ""⟩
        "some four word anchor" = 4 ∧
      linkScoreSpecHost "bbc.com" ⟨"https", "notbbc.com", "", "", "", ""⟩
        "some four word anchor" = 2 :=
  ⟨by decide, by decide, by decide⟩

/-- One accumulation step of the score chain shifts out as a summand. -/
theorem ite_add_shift (c : Prop) [Decidable c] (s k : Int) :
    (if c then s + k else s) = s + (if c then k else 0) := by
  split_ifs <;> omega

/-- As `ite_add_shift`, for a subtracting step. -/
theorem ite_sub_shift (c : Prop) [Decidable c] (s k : Int) :
    (if c then s - k else s) = s + (if c then -k else 0) := by
  split_ifs <;> omega

/-- As `ite_add_shift`, when both arms have a shifted summand (the
anchor-word-count step after its else-arm is shifted). -/
theorem ite_add_branch (c : Prop) [Decidable c] (s k t : Int) :
    (if c then s + k else s + t) = s + (if c then k else t) := by
  split_ifs <;> omega

/-- The additive score chain with its ten conditions abstracted: the first
(host) term splits off as a separate summand. -/
theorem score_chain_decomp (c1 c2 c3 c4a c4b c5 c6 c7 c8 c9 : Prop)
    [Decidable c1] [Decidable c2] [Decidable c3] [Decidable c4a] [Decidable c4b]
    [Decidable c5] [Decidable c6] [Decidable c7] [Decidable c8] [Decidable c9] :
    (let s : Int := 0
     let s := if c1 then s + 2 else s
     let s := if c2 then s + 1 else s
     let s := if c3 then s + 2 else s
     let s := if c4a then s + 2 else if c4b then s - 2 else s
     let s := if c5 then s - 4 else s
     let s := if c6 then s - 3 else s
     let s := if c7 then s - 4 else s
     let s := if c8 then s - 2 else s
     let s := if c9 then s + 3 else s
     s) =
      (if c1 then (2 : Int) else 0) +
        (let s : Int := 0
         let s := if c2 then s + 1 else s
         let s := if c3 then s + 2 else s
         let s := if c4a then s + 2 else if c4b then s - 2 else s
         let s := if c5 then s - 4 else s
         let s := if c6 then s - 3 else s
         let s := if c7 then s - 4 else s
         let s := if c8 then s - 2 else s
         let s := if c9 then s + 3 else s
         s) := by
  simp only [ite_sub_shift, ite_add_shift, ite_add_branch]
  ring

/-- C8 amended: the +2 host bonus is included exactly when the candidate's
lowercased host ends with the start host string — a plain suffix test that
admits the start host and its subdomains but also unrelated hosts such as
`notbbc.com` against `bbc.com`.  The score is the host term plus the
host-independent remainder, hence a pure function of (start host,
normalized URL, anchor text). -/
theorem claim_C8_amended_host_suffix (start_host : String) (u : Url) (anchor_text : String) :
    linkScore start_host u anchor_text =
      (if pyEndsWith (pyLower u.netloc) start_host then (2 : Int) else 0) +
        linkScoreSansHost u anchor_text := by
  exact score_chain_decomp _ _ _ _ _ _ _ _ _ _

/-! ## Lemmas: link extraction -/

theorem toSel_url (it : LinkItem) : it.toSel.url = it.url := rfl

/-- The deduplication loop: every produced URL is fresh (not in `seen`)
and the produced URLs are pairwise distinct. -/
theorem buildLinks_urls (resolve : String → Url) (sh : String) :
    ∀ (l : List Node) (idx : Nat) (seen : List Url),
      ((buildLinks resolve sh l idx seen).map (fun it => it.url)).Nodup ∧
      ∀ it ∈ buildLinks resolve sh l idx seen, it.url ∉ seen := by
  intro l
  induction l with
  | nil => intro idx seen; simp [buildLinks]
  | cons a rest ih =>
    intro idx seen
    simp only [buildLinks]
    split_ifs with h1 h2 h3 h4
    · exact ih (idx + 1) seen
    · exact ih (idx + 1) seen
    · exact ih (idx + 1) seen
    · obtain ⟨ihN, ihF⟩ := ih (idx + 1)
        ({ resolve (pyStrip (a.attrsOf.href.getD "")) with fragment := "" } ::
          seen)
      refine ⟨List.nodup_cons.mpr ⟨?_, ihN⟩, ?_⟩
      · intro hmem
        rcases List.mem_map.mp hmem with ⟨it, hit, hurl⟩
        exact (ihF it hit) (hurl ▸ List.mem_cons_self _ _)
      · intro it hit
        rcases List.mem_cons.mp hit with rfl | hit
        · exact h4
        · intro hseen
          exact (ihF it hit) (List.mem_cons_of_mem _ hseen)
    · exact ih (idx + 1) seen

/-- The selection loop appends a subsequence of its input to the
accumulator. -/
theorem selectLoop_shape (ml ms : Nat) :
    ∀ (l acc : List LinkItem),
      ∃ s, selectLoop ml ms l acc = acc ++ s ∧ s.Sublist l := by
  intro l
  induction l with
  | nil => intro acc; exact ⟨[], by simp [selectLoop]⟩
  | cons it rest ih =>
    intro acc
    simp only [selectLoop]
    split_ifs with h1 h2
    · exact ⟨[], by simp, List.nil_sublist _⟩
    · obtain ⟨s, hs, hsub⟩ := ih acc
      exact ⟨s, hs, hsub.cons it⟩
    · obtain ⟨s, hs, hsub⟩ := ih (acc ++ [it])
      exact ⟨it :: s, by simpa [List.append_assoc] using hs, hsub.cons₂ it⟩

/-- The selection loop never grows past `max_links` (nor past an already
over-full accumulator). -/
theorem selectLoop_length (ml ms : Nat) :
    ∀ (l acc : List LinkItem), (selectLoop ml ms l acc).length ≤ max ml acc.length := by
  intro l
  induction l with
  | nil => intro acc; simp [selectLoop]
  | cons it rest ih =>
    intro acc
    simp only [selectLoop]
    split_ifs with h1 h2
    · omega
    · have := ih acc
      omega
    · have := ih (acc ++ [it])
      simp only [List.length_append, List.length_singleton] at this
      omega

/-- Invariant of the admission rule: every selected entry at position
`ms` or later has a non-negative score. -/
theorem selectLoop_nonneg (ml ms : Nat) :
    ∀ (l acc : List LinkItem),
      (∀ i it, acc[i]? = some it → ms ≤ i → 0 ≤ it.score) →
      ∀ i it, (selectLoop ml ms l acc)[i]? = some it → ms ≤ i →
        0 ≤ it.score := by
  intro l
  induction l with
  | nil => intro acc hacc; simpa [selectLoop] using hacc
  | cons a rest ih =>
    intro acc hacc
    simp only [selectLoop]
    split_ifs with h1 h2
    · exact hacc
    · exact ih acc hacc
    · refine ih (acc ++ [a]) ?_
      intro i it0 hget hms
      rw [List.getElem?_append] at hget
      rcases Nat.lt_or_ge i acc.length with hi | hi
      · rw [if_pos hi] at hget
        exact hacc i it0 hget hms
      · rw [if_neg (by omega)] at hget
        have hzero : i - acc.length = 0 := by
          by_contra hne
          rcases Nat.exists_eq_succ_of_ne_zero hne with ⟨k, hk⟩
          rw [hk] at hget
          simp at hget
        rw [hzero] at hget
        have hsc : ¬ a.score < 0 := by
          intro hneg
          exact h2 ⟨hneg, by omega⟩
        simp at hget
        subst hget
        omega

/-- The anchors enumerated by `extract_links`. -/
def anchorsOf (soup : Node) : List Node :=
  (pickContentContainer soup).findAll (fun t a => t == "a" && a.href.isSome)

/-- The sorted, deduplicated candidate list of `extract_links`. -/
def linksOf (resolve : String → Url) (start_url : Url) (soup : Node) : List LinkItem :=
  sortLinks (buildLinks resolve (pyLower start_url.netloc) (anchorsOf soup) 0 [])

/-- The output of the selection loop of `extract_links`. -/
def selectedOf (resolve : String → Url) (start_url : Url) (soup : Node)
    (max_links : Nat) : List LinkItem :=
  selectLoop max_links (max 2 (max_links / 2)) (linksOf resolve start_url soup) []

theorem extractLinks_eq (resolve : String → Url) (start_url : Url) (soup : Node)
    (max_links : Nat) :
    extractLinks resolve start_url soup max_links =
      (if selectedOf resolve start_url soup max_links = []
       then (linksOf resolve start_url soup).take max_links
       else selectedOf resolve start_url soup max_links).map LinkItem.toSel := rfl

/-- The URLs of the candidate list are pairwise distinct. -/
theorem linksOf_urls_nodup (resolve : String → Url) (start_url : Url) (soup : Node) :
    ((linksOf resolve start_url soup).map (fun it => it.url)).Nodup := by
  have h0 := (buildLinks_urls resolve (pyLower start_url.netloc) (anchorsOf soup) 0 []).1
  have hperm : List.Perm (linksOf resolve start_url soup)
      (buildLinks resolve (pyLower start_url.netloc) (anchorsOf soup) 0 []) :=
    List.perm_insertionSort _ _
  exact ((hperm.map (fun it => it.url)).nodup_iff).mpr h0

/-! ## Claims C5 and C6 -/

/-- C5: for every html tree, start URL (with any resolution of relative
hrefs) and maximum, the returned link list never exceeds `max_links`
entries and contains no two entries with the same normalized
(fragment-stripped) absolute URL. -/
theorem claim_C5_links_nodup_bounded (resolve : String → Url) (start_url : Url)
    (soup : Node) (max_links : Nat) :
    (extractLinks resolve start_url soup max_links).length ≤ max_links ∧
      ((extractLinks resolve start_url soup max_links).map SelLink.url).Nodup := by
  rw [extractLinks_eq]
  have hnodup := linksOf_urls_nodup resolve start_url soup
  by_cases hsel : selectedOf resolve start_url soup max_links = []
  · rw [if_pos hsel]
    constructor
    · simp only [List.length_map, List.length_take]
      omega
    · rw [List.map_map]
      have hsub : ((linksOf resolve start_url soup).take max_links).map
            (fun it => it.url) |>.Sublist
            ((linksOf resolve start_url soup).map (fun it => it.url)) :=
        (List.take_sublist _ _).map _
      simpa [Function.comp_def, toSel_url] using hsub.nodup hnodup
  · rw [if_neg hsel]
    obtain ⟨s, hs, hsub⟩ :=
      selectLoop_shape max_links (max 2 (max_links / 2)) (linksOf resolve start_url soup) []
    constructor
    · have hlen := selectLoop_length max_links (max 2 (max_links / 2))
        (linksOf resolve start_url soup) []
      simp only [List.length_map]
      simp only [List.length_nil, Nat.max_eq_left (Nat.zero_le _)] at hlen
      exact hlen
    · rw [List.map_map]
      have : (selectedOf resolve start_url soup max_links).map (fun it => it.url)
          |>.Sublist ((linksOf resolve start_url soup).map (fun it => it.url)) := by
        rw [show selectedOf resolve start_url soup max_links = s from hs]
        exact hsub.map _
      simpa [Function.comp_def, toSel_url] using this.nodup hnodup

/-- C6: the admission rule of the selection loop.  (i) Once at least
`max(2, max_links / 2)` slots are filled, no further negative-scoring
candidate is admitted: every selected entry at such a position has a
non-negative score.  (ii) If the loop selected nothing, the first
`max_links` entries of the score-sorted list are returned regardless of
sign.  (iii) Hence the output is non-empty whenever at least one eligible
link was extracted and at least one link was requested. -/
theorem claim_C6_admission_and_fallback (resolve : String → Url) (start_url : Url)
    (soup : Node) (max_links : Nat) :
    (∀ i it, (selectedOf resolve start_url soup max_links)[i]? = some it →
        max 2 (max_links / 2) ≤ i → 0 ≤ it.score) ∧
      (selectedOf resolve start_url soup max_links = [] →
        extractLinks resolve start_url soup max_links =
          ((linksOf resolve start_url soup).take max_links).map LinkItem.toSel) ∧
      (1 ≤ max_links → linksOf resolve start_url soup ≠ [] →
        extractLinks resolve start_url soup max_links ≠ []) := by
  refine ⟨?_, ?_, ?_⟩
  · exact selectLoop_nonneg max_links (max 2 (max_links / 2))
      (linksOf resolve start_url soup) [] (by intro i it h; simp at h)
  · intro hsel
    rw [extractLinks_eq, if_pos hsel]
  · intro hml hlinks
    have hne : selectedOf resolve start_url soup max_links ≠ [] := by
      rcases hl : linksOf resolve start_url soup with _ | ⟨a, rest⟩
      · exact absurd hl hlinks
      · unfold selectedOf
        rw [hl]
        simp only [selectLoop, List.length_nil]
        rw [if_neg (by omega)]
        rw [if_neg (by
          rintro ⟨_, hle⟩
          have h2le : 2 ≤ max 2 (max_links / 2) := Nat.le_max_left _ _
          omega)]
        simp only [List.nil_append]
        obtain ⟨s, hs, _⟩ :=
          selectLoop_shape max_links (max 2 (max_links / 2)) rest [a]
        rw [hs]
        simp
    rw [extractLinks_eq, if_neg hne]
    simpa using hne

/-- A link anchor element. -/
def anchorNode (href text : String) : Node :=
  .elem "a" { href := some href } (nodesOf [.text text])

/-- A sample resolver standing for `urlparse(urljoin(start, href))` on
`https://example.com/`: every href in `docLinks` is an absolute path. -/
def resolveSample : String → Url :=
  fun href => ⟨"https", "example.com", href, "", "", ""⟩

def startSample : Url := ⟨"https", "example.com", "/", "", "", ""⟩

/-- A document with three distinct, positively scoring article links. -/
def docLinks : Node :=
  .elem "[document]" {} (nodesOf
    [anchorNode "/news/articles/abc1" "one two three four",
     anchorNode "/news/articles/abc2" "five six seven eight",
     anchorNode "/news/articles/abc3" "nine ten eleven twelve"])

/-- C6 witnessed: on `docLinks` with `max_links = 4`, the entry at
position 2 (at the admission threshold `max 2 2`) has a non-negative
score; with `max_links = 0` the loop selects nothing and the fallback
slice is returned; with `max_links = 4` the output is non-empty. -/
theorem claim_C6_witness :
    (0 : Int) ≤
        (⟨⟨"https", "example.com", "/news/articles/abc3", "", "", ""⟩,
          "nine ten eleven twelve", 10, 2⟩ : LinkItem).score ∧
      extractLinks resolveSample startSample docLinks 0 =
        ((linksOf resolveSample startSample docLinks).take 0).map LinkItem.toSel ∧
      extractLinks resolveSample startSample docLinks 4 ≠ [] := by
  refine ⟨?_, ?_, ?_⟩
  · exact (claim_C6_admission_and_fallback resolveSample startSample docLinks 4).1
      2 _ (by decide) (by decide)
  · exact (claim_C6_admission_and_fallback resolveSample startSample docLinks 0).2.1
      (by decide)
  · exact (claim_C6_admission_and_fallback resolveSample startSample docLinks 4).2.2
      (by decide) (by decide)

end WebText
